import Mathlib

/-!
Verification of the document tiering and chunked semantic-retrieval pipeline
of the LinkedIn-Post-Generator repository (`backend/tools/file_search/`:
`config.py`, `document_processor.py`, `rag.py`, with the upload flow in
`backend/main.py` and the expansion schema in `backend/models/schema.py`).

Modelling conventions for the shallow embedding:

* Texts handled by the tiktoken tokenizer are modelled at the token level: a
  text is its token-id sequence (`TokText := List Nat`), so `count_tokens` is
  `List.length`, `encoding.encode`/`encoding.decode` are identities on the
  model, and slicing the first `max_tokens` tokens is `List.take`.
* Word sequences handled by the chunker are modelled as `List String`: the
  chunker's only use of its input text is `text.split()`, so the embedding
  takes the whitespace word list directly.
* Chunk identifiers are modelled as `List Char`; Python string formatting,
  `str.split(sep)` and `int(...)` are given executable character-level models.
* The external vector index and LLM are collaborators behind narrow
  interfaces; functions that consume their responses take those responses as
  explicit arguments (per-query ranked `(id, text)` lists, expansion variant
  lists), exactly as the source consumes them.
-/

namespace FileSearch

/-- Configuration constant `DIRECT_TOKEN_LIMIT` from
`backend/tools/file_search/config.py`: use direct extraction if the document
has at most this many tokens. -/
def DIRECT_TOKEN_LIMIT : Nat := 80000

/-- Configuration constant `MAX_TOKEN_LIMIT` from `config.py`: hard ceiling,
documents above it are rejected. -/
def MAX_TOKEN_LIMIT : Nat := 120000

/-- Configuration constant `CHUNK_SIZE_TOKENS` from `config.py`. -/
def CHUNK_SIZE_TOKENS : Nat := 1000

/-- Configuration constant `CHUNK_OVERLAP_TOKENS` from `config.py`. -/
def CHUNK_OVERLAP_TOKENS : Nat := 100

/-- Model of `determine_tier` (`document_processor.py` lines 85-94):
`return "direct" if token_count <= DIRECT_TOKEN_LIMIT else "rag"`.
The string `"rag"` is the code's name for the spec's `indexed` tier. -/
def determine_tier (token_count : Nat) : String :=
  if token_count ≤ DIRECT_TOKEN_LIMIT then "direct" else "rag"

/-- Texts under the fixed tiktoken encoding, modelled as their token-id
sequences. -/
abbrev TokText := List Nat

/-- Model of `count_tokens` (`document_processor.py` lines 38-49): the length
of the encoded token sequence. -/
def count_tokens (text : TokText) : Nat := text.length

/-- Token sequence of the literal marker string
`"\n\n[Content truncated to fit token limit]"` appended by `truncate_text`.
The concrete ids stand in for the marker's tiktoken encoding; the only
property of the marker the development relies on is that a nonempty string
encodes to a nonempty token sequence. -/
def truncation_marker : TokText := [198, 198, 58, 2831, 62575, 316, 4018, 6602, 4529, 60]

/-- Model of `truncate_text` (`document_processor.py` lines 97-119): return
the text unchanged when its token count is within `max_tokens`; otherwise
keep the first `max_tokens` tokens and append the literal truncation
marker. -/
def truncate_text (text : TokText) (max_tokens : Nat) : TokText :=
  if count_tokens text ≤ max_tokens then text
  else text.take max_tokens ++ truncation_marker

/-- Word budget per chunk in `chunk_text` (`rag.py` line 55):
`words_per_chunk = int(CHUNK_SIZE_TOKENS * 0.75)`, exact at this value. -/
def words_per_chunk : Nat := CHUNK_SIZE_TOKENS * 3 / 4

/-- Overlap word budget in `chunk_text` (`rag.py` line 56):
`overlap_words = int(CHUNK_OVERLAP_TOKENS * 0.75)`, exact at this value. -/
def overlap_words : Nat := CHUNK_OVERLAP_TOKENS * 3 / 4

/-- Window walk of `chunk_text` (`rag.py` lines 58-66): while `start` is
inside the word list, emit the window `words[start : start + words_per_chunk]`
and advance `start` to `end - overlap_words`.  Each emitted chunk is kept as
its word list; joining with a single space happens in `chunk_text`. -/
def chunkFrom (words : List String) (start : Nat) : List (List String) :=
  if _h : start < words.length then
    (words.drop start).take words_per_chunk ::
      chunkFrom words (start + words_per_chunk - overlap_words)
  else []
termination_by words.length - start
decreasing_by
  have h1 : words_per_chunk = 750 := rfl
  have h2 : overlap_words = 75 := rfl
  omega

/-- Model of `chunk_text` (`rag.py` lines 44-67) applied to the whitespace
word list produced by Python `text.split()`: each window is joined with a
single space, mirroring `" ".join(words[start:end])`. -/
def chunk_text (words : List String) : List String :=
  (chunkFrom words 0).map (fun chunk => String.intercalate " " chunk)

/-- Helper: `chunkFrom` covers every word index at or after its start. -/
theorem chunkFrom_cover (words : List String) (start i : Nat) (hsi : start ≤ i)
    (hi : i < words.length) :
    ∃ c ∈ chunkFrom words start, words[i] ∈ c := by
  rw [chunkFrom, dif_pos (lt_of_le_of_lt hsi hi)]
  by_cases hw : i < start + words_per_chunk
  · refine ⟨(words.drop start).take words_per_chunk, List.mem_cons_self _ _, ?_⟩
    have h1 : i - start < ((words.drop start).take words_per_chunk).length := by
      simp only [List.length_take, List.length_drop]
      omega
    have h2 : ((words.drop start).take words_per_chunk).get ⟨i - start, h1⟩ =
        words.get ⟨i, hi⟩ := by
      simp only [List.get_eq_getElem, List.getElem_take, List.getElem_drop]
      congr 1
      omega
    have h3 := h2 ▸ List.get_mem _ _ h1
    rw [List.get_eq_getElem] at h3
    exact h3
  · have hs' : start + words_per_chunk - overlap_words ≤ i := by
      have h1 : words_per_chunk = 750 := rfl
      have h2 : overlap_words = 75 := rfl
      omega
    obtain ⟨c, hc, hm⟩ :=
      chunkFrom_cover words (start + words_per_chunk - overlap_words) i hs' hi
    exact ⟨c, List.mem_cons_of_mem _ hc, hm⟩
termination_by words.length - start
decreasing_by
  have h1 : words_per_chunk = 750 := rfl
  have h2 : overlap_words = 75 := rfl
  omega

/-- C7: tier classification is a pure total function of the token count with
threshold 80,000: every count at most 80,000 (in particular exactly 80,000)
classifies as `"direct"`, and every larger count (in particular 80,001)
classifies as `"rag"`, the code's name for the spec's `indexed` tier.
Totality and absence of side effects and error cases are witnessed by
`determine_tier` being a total Lean function into `String`. -/
theorem determine_tier_threshold :
    (∀ n : Nat, n ≤ 80000 → determine_tier n = "direct") ∧
    (∀ n : Nat, 80000 < n → determine_tier n = "rag") ∧
    determine_tier 80000 = "direct" ∧ determine_tier 80001 = "rag" := by
  refine ⟨fun n h => ?_, fun n h => ?_, by decide, by decide⟩
  · simp only [determine_tier, DIRECT_TOKEN_LIMIT, if_pos h]
  · simp only [determine_tier, DIRECT_TOKEN_LIMIT]
    rw [if_neg (by omega)]

/-- Witness for C7 at the boundary input 80,001. -/
theorem determine_tier_threshold_witness :
    80000 < 80001 ∧ determine_tier 80001 = "rag" :=
  ⟨by decide, determine_tier_threshold.2.1 80001 (by decide)⟩

/-- C1 counterexample: with a one-token text and budget 0 the code truncates
to the first 0 tokens and then appends the literal marker, so the output's
token count exceeds the budget. -/
theorem truncate_budget_cex :
    ¬ count_tokens (truncate_text [7] 0) ≤ 0 := by decide

/-- C1 (amended): the token count of the truncated output never exceeds the
budget plus the token count of the appended truncation marker; the budget `k`
itself is respected exactly on the no-truncation branch, while on the
truncation branch (first `k` tokens kept, marker appended) the output counts
exactly `k` plus the marker's tokens. -/
theorem truncate_budget_amended (text : TokText) (k : Nat) :
    count_tokens (truncate_text text k) ≤ k + count_tokens truncation_marker ∧
    (count_tokens text ≤ k → count_tokens (truncate_text text k) ≤ k) ∧
    (k < count_tokens text →
      count_tokens (truncate_text text k) = k + count_tokens truncation_marker) := by
  simp only [truncate_text, count_tokens] at *
  split
  · next h => exact ⟨by omega, fun _ => h, fun hk => absurd h (by omega)⟩
  · next h =>
    simp only [List.length_append, List.length_take]
    exact ⟨by omega, fun hle => absurd hle h, fun hk => by omega⟩

/-- Witness for C1 (amended) at a one-token text and budget 0. -/
theorem truncate_budget_amended_witness :
    0 < count_tokens [7] ∧
    count_tokens (truncate_text [7] 0) = 0 + count_tokens truncation_marker :=
  ⟨by decide, (truncate_budget_amended [7] 0).2.2 (by decide)⟩

/-- C8: truncation is idempotent — truncating twice with the same budget
equals truncating once — and a text already within budget is returned
unchanged. -/
theorem truncate_idempotent (text : TokText) (k : Nat) :
    truncate_text (truncate_text text k) k = truncate_text text k ∧
    (count_tokens text ≤ k → truncate_text text k = text) := by
  constructor
  · by_cases h : count_tokens text ≤ k
    · simp only [truncate_text, if_pos h]
    · have hout : truncate_text text k = text.take k ++ truncation_marker := by
        simp only [truncate_text, if_neg h]
      have hlen : (text.take k).length = k := by
        simp only [count_tokens] at h
        rw [List.length_take]
        omega
      have hmark : truncation_marker.length = 10 := by decide
      have hcnt : ¬ count_tokens (text.take k ++ truncation_marker) ≤ k := by
        simp only [count_tokens, List.length_append, hlen, hmark]
        omega
      rw [hout]
      simp only [truncate_text, if_neg hcnt]
      rw [List.take_append_eq_append_take, hlen, Nat.sub_self, List.take_take,
        Nat.min_self, List.take_zero, List.append_nil]
  · intro h
    simp only [truncate_text, if_pos h]

/-- Witness for C8 at a text already within budget. -/
theorem truncate_idempotent_witness :
    count_tokens [5] ≤ 3 ∧ truncate_text [5] 3 = [5] :=
  ⟨by decide, (truncate_idempotent [5] 3).2 (by decide)⟩

/-- C9: a 500-word document under the configured window (750 words per chunk,
75 overlap words) yields exactly one chunk, and that chunk carries all 500
words in their original order; the first window starts at word 0 and the next
window start, 675, already lies past the end of the document. -/
theorem chunk_text_500_words (words : List String) (h : words.length = 500) :
    chunkFrom words 0 = [words] ∧
    chunk_text words = [String.intercalate " " words] := by
  have h675 : chunkFrom words 675 = [] := by
    rw [chunkFrom, dif_neg (by omega)]
  have h0 : chunkFrom words 0 = [words] := by
    rw [chunkFrom, dif_pos (by omega)]
    have hwpc : words_per_chunk = 750 := rfl
    have hov : overlap_words = 75 := rfl
    rw [hwpc, hov, List.drop_zero, List.take_of_length_le (by omega)]
    norm_num [h675]
  exact ⟨h0, by simp [chunk_text, h0]⟩

/-- Witness for C9 at a concrete 500-word document. -/
theorem chunk_text_500_words_witness :
    (List.replicate 500 "a").length = 500 ∧
    chunk_text (List.replicate 500 "a") =
      [String.intercalate " " (List.replicate 500 "a")] :=
  ⟨List.length_replicate 500 "a",
    (chunk_text_500_words (List.replicate 500 "a") (List.length_replicate 500 "a")).2⟩

/-- C10: chunking loses no text — every word index of the input word list is
covered by some window emitted by the chunk loop, and that window's joined
text is one of the chunks returned by `chunk_text`; the empty word list yields
no chunks.  Termination of the loop is witnessed by `chunkFrom` being
accepted as a total function: the fixed configuration advances the window
start by `750 - 75 = 675 > 0` words each step. -/
theorem chunk_text_coverage (words : List String) :
    (words = [] → chunk_text words = []) ∧
    ∀ i, (hi : i < words.length) → ∃ c ∈ chunkFrom words 0,
      words[i] ∈ c ∧ String.intercalate " " c ∈ chunk_text words := by
  constructor
  · intro h
    subst h
    rw [chunk_text, chunkFrom, dif_neg (by simp)]
    simp
  · intro i hi
    obtain ⟨c, hc, hm⟩ := chunkFrom_cover words 0 i (Nat.zero_le i) hi
    exact ⟨c, hc, hm, List.mem_map_of_mem _ hc⟩

/-- Witness for C10 at a concrete two-word document and index 0. -/
theorem chunk_text_coverage_witness :
    0 < (["alpha", "beta"] : List String).length ∧
    ∃ c ∈ chunkFrom ["alpha", "beta"] 0,
      (["alpha", "beta"] : List String)[0] ∈ c ∧
      String.intercalate " " c ∈ chunk_text ["alpha", "beta"] :=
  ⟨by decide, (chunk_text_coverage ["alpha", "beta"]).2 0 (by decide)⟩

/-- Character list of the `_chunk_` separator used in identifiers built by
`create_vector_store` (`rag.py` line 90) and parsed back by `retrieve_chunks`
(`rag.py` line 165). -/
def chunkMarker : List Char := ['_', 'c', 'h', 'u', 'n', 'k', '_']

/-- Fuel-indexed decimal rendering of a natural number, most significant
digit first; models Python `str`/f-string formatting of a nonnegative `int`
(the runtime's own `Nat.toDigitsCore` uses the same fuel pattern). -/
def natToDigitsAux : Nat → Nat → List Char
  | 0, _ => []
  | fuel + 1, n =>
    if n < 10 then [Nat.digitChar n]
    else natToDigitsAux fuel (n / 10) ++ [Nat.digitChar (n % 10)]

/-- Decimal character rendering of `n`; the fuel `n + 1` always suffices. -/
def natToDigits (n : Nat) : List Char := natToDigitsAux (n + 1) n

/-- Model of the f-string `f"{file_id}_chunk_{i}"` (`rag.py` line 90). -/
def mkChunkId (file_id : List Char) (i : Nat) : List Char :=
  file_id ++ chunkMarker ++ natToDigits i

/-- Model of the identifier list built by `create_vector_store` (`rag.py`
line 90): `ids = [f"{file_id}_chunk_{i}" for i in range(len(chunks))]`. -/
def create_vector_store_ids (file_id : List Char) (chunks : List String) :
    List (List Char) :=
  (List.range chunks.length).map (mkChunkId file_id)

/-- Decimal value accumulated left to right, the digit arithmetic behind
Python `int(...)` on a numeral. -/
def digitsVal (cs : List Char) : Nat :=
  cs.foldl (fun a c => a * 10 + (c.toNat - 48)) 0

/-- Model of Python `int(s)` restricted to the shapes that occur in chunk
identifiers: succeeds exactly on nonempty all-digit strings, `none` models
the `ValueError` on anything else. -/
def pyIntNat (cs : List Char) : Option Nat :=
  if cs ≠ [] ∧ cs.all Char.isDigit then some (digitsVal cs) else none

/-- Suffix of a string after the last occurrence of `chunkMarker`, or `none`
when the marker does not occur; this is the parse direction named by the
spec's chunk-identity invariant ("the suffix after the last `_chunk_`
marker"). -/
def suffixAfterLastMarker : List Char → Option (List Char)
  | [] => none
  | c :: rest =>
    match suffixAfterLastMarker rest with
    | some r => some r
    | none =>
      if chunkMarker.isPrefixOf (c :: rest) then
        some ((c :: rest).drop chunkMarker.length)
      else none

/-- Ordinal recovered from a chunk identifier by parsing the decimal suffix
after the last `_chunk_` marker. -/
def parseOrdinal (id : List Char) : Option Nat :=
  (suffixAfterLastMarker id).bind pyIntNat

/-- Suffix after the first occurrence of `chunkMarker`, scanning left to
right (`none` when the marker is absent). -/
def afterFirstMarker : List Char → Option (List Char)
  | [] => none
  | c :: rest =>
    if chunkMarker.isPrefixOf (c :: rest) then
      some ((c :: rest).drop chunkMarker.length)
    else afterFirstMarker rest

/-- Position of the first occurrence of `chunkMarker` in a string. -/
def findMarker : List Char → Option Nat
  | [] => none
  | c :: rest =>
    if chunkMarker.isPrefixOf (c :: rest) then some 0
    else (findMarker rest).map (· + 1)

/-- Model of `x.split("_chunk_")[1]` (`rag.py` line 165): Python `str.split`
cuts at non-overlapping occurrences found scanning left to right, so element
1 runs from the end of the first occurrence to the start of the next one (or
to the end of the string); `none` models the `IndexError` raised when the
separator is absent. -/
def splitSecondField (id : List Char) : Option (List Char) :=
  (afterFirstMarker id).map (fun t =>
    match findMarker t with
    | some j => t.take j
    | none => t)

/-- Sort key `int(x[0].split("_chunk_")[1])` of `retrieve_chunks` (`rag.py`
lines 163-166), totalised with default 0 on the inputs where Python would
raise; those never occur for identifiers produced by `create_vector_store`. -/
def chunkKey (id : List Char) : Nat :=
  match splitSecondField id with
  | some s => (pyIntNat s).getD 0
  | none => 0

/-- Helper: decimal digit characters decode back to their value. -/
theorem digitChar_decode : ∀ k : Nat, k < 10 → (Nat.digitChar k).toNat - 48 = k := by
  decide

/-- Helper: decimal digit characters satisfy `Char.isDigit`. -/
theorem digitChar_isDigit : ∀ k : Nat, k < 10 → (Nat.digitChar k).isDigit = true := by
  decide

/-- Helper: the rendered digits of a number are a nonempty all-digit string
folding back to the number, for any sufficient fuel. -/
theorem natToDigitsAux_spec : ∀ fuel n, n < fuel →
    natToDigitsAux fuel n ≠ [] ∧
    (∀ c ∈ natToDigitsAux fuel n, c.isDigit = true) ∧
    digitsVal (natToDigitsAux fuel n) = n := by
  intro fuel
  induction fuel with
  | zero => intro n hn; omega
  | succ fuel ih =>
    intro n hn
    by_cases h10 : n < 10
    · refine ⟨by simp [natToDigitsAux, h10], ?_, ?_⟩
      · intro c hc
        simp only [natToDigitsAux, if_pos h10, List.mem_singleton] at hc
        exact hc ▸ digitChar_isDigit n h10
      · simp only [natToDigitsAux, if_pos h10, digitsVal, List.foldl_cons,
          List.foldl_nil, Nat.zero_mul, Nat.zero_add]
        exact digitChar_decode n h10
    · have hrec : n / 10 < fuel := by omega
      obtain ⟨ih1, ih2, ih3⟩ := ih (n / 10) hrec
      have hmod : n % 10 < 10 := Nat.mod_lt n (by omega)
      refine ⟨by simp [natToDigitsAux, h10], ?_, ?_⟩
      · intro c hc
        simp only [natToDigitsAux, if_neg h10, List.mem_append,
          List.mem_singleton] at hc
        rcases hc with hc | hc
        · exact ih2 c hc
        · exact hc ▸ digitChar_isDigit _ hmod
      · simp only [natToDigitsAux, if_neg h10, digitsVal, List.foldl_append,
          List.foldl_cons, List.foldl_nil]
        have := digitChar_decode (n % 10) hmod
        simp only [digitsVal] at ih3
        rw [ih3, this]
        omega

/-- Helper: rendered digits of `n` are nonempty, all digits, and decode to
`n`. -/
theorem natToDigits_spec (n : Nat) :
    natToDigits n ≠ [] ∧
    (∀ c ∈ natToDigits n, c.isDigit = true) ∧
    digitsVal (natToDigits n) = n :=
  natToDigitsAux_spec (n + 1) n (by omega)

/-- Helper: the `int` parse inverts decimal rendering. -/
theorem pyIntNat_natToDigits (n : Nat) : pyIntNat (natToDigits n) = some n := by
  obtain ⟨h1, h2, h3⟩ := natToDigits_spec n
  simp only [pyIntNat, ne_eq, h1, not_false_eq_true, true_and, List.all_eq_true, h3]
  rw [if_pos h2]

/-- Helper: no underscore occurs among rendered digits. -/
theorem natToDigits_no_underscore (n : Nat) : '_' ∉ natToDigits n := by
  intro hmem
  have := (natToDigits_spec n).2.1 '_' hmem
  exact absurd this (by decide)

/-- Helper: a list is a Boolean prefix of itself followed by anything. -/
theorem isPrefixOf_append_self (l d : List Char) : l.isPrefixOf (l ++ d) = true := by
  induction l with
  | nil => simp [List.isPrefixOf]
  | cons a as ih => simp [List.isPrefixOf, ih]

/-- Helper: a Boolean prefix yields the defining decomposition. -/
theorem exists_of_isPrefixOf {l : List Char} :
    ∀ {s : List Char}, l.isPrefixOf s = true → ∃ v, l ++ v = s := by
  induction l with
  | nil => exact fun {s} _ => ⟨s, rfl⟩
  | cons a as ih =>
    intro s h
    cases s with
    | nil => simp [List.isPrefixOf] at h
    | cons b bs =>
      simp only [List.isPrefixOf, Bool.and_eq_true, beq_iff_eq] at h
      obtain ⟨rfl, h2⟩ := h
      obtain ⟨v, hv⟩ := ih h2
      exact ⟨v, by rw [List.cons_append, hv]⟩

/-- Helper: the marker starts with an underscore, so it is no prefix of a
string starting with any other character. -/
theorem marker_not_prefixOf_cons {c : Char} (rest : List Char) (hc : c ≠ '_') :
    chunkMarker.isPrefixOf (c :: rest) = false := by
  have hb : ('_' == c) = false := beq_eq_false_iff_ne.mpr (Ne.symm hc)
  simp [chunkMarker, List.isPrefixOf, hb]

/-- Helper: scanning a string that opens with the marker cuts exactly the
marker off. -/
theorem afterFirstMarker_marker (d : List Char) :
    afterFirstMarker (chunkMarker ++ d) = some d := by
  have h2 : chunkMarker.isPrefixOf (chunkMarker ++ d) = true :=
    isPrefixOf_append_self chunkMarker d
  have h2' : chunkMarker.isPrefixOf
      ('_' :: (['c', 'h', 'u', 'n', 'k', '_'] ++ d)) = true := h2
  show afterFirstMarker ('_' :: (['c', 'h', 'u', 'n', 'k', '_'] ++ d)) = some d
  rw [afterFirstMarker, h2']
  rfl

/-- Helper: the first marker occurrence in an identifier built from an
underscore-free file id sits right after the file id. -/
theorem afterFirstMarker_append (fid d : List Char) (hfid : ∀ c ∈ fid, c ≠ '_') :
    afterFirstMarker (fid ++ (chunkMarker ++ d)) = some d := by
  induction fid with
  | nil => simpa using afterFirstMarker_marker d
  | cons c fid' ih =>
    have hc : c ≠ '_' := hfid c (List.mem_cons_self _ _)
    rw [List.cons_append, afterFirstMarker,
      marker_not_prefixOf_cons _ hc]
    simp only [Bool.false_eq_true, if_false]
    exact ih (fun x hx => hfid x (List.mem_cons_of_mem _ hx))

/-- Helper: a string without underscores contains no marker occurrence. -/
theorem findMarker_none (d : List Char) (hd : '_' ∉ d) : findMarker d = none := by
  induction d with
  | nil => rfl
  | cons c rest ih =>
    have hc : c ≠ '_' := fun h => hd (h ▸ List.mem_cons_self _ _)
    rw [findMarker, marker_not_prefixOf_cons _ hc]
    simp only [Bool.false_eq_true, if_false,
      ih (fun h => hd (List.mem_cons_of_mem _ h)), Option.map_none']

/-- Helper: on an identifier with an underscore-free file id and an
underscore-free payload, `split("_chunk_")[1]` recovers the payload. -/
theorem splitSecondField_append (fid d : List Char) (hfid : ∀ c ∈ fid, c ≠ '_')
    (hd : '_' ∉ d) :
    splitSecondField (fid ++ (chunkMarker ++ d)) = some d := by
  rw [splitSecondField, afterFirstMarker_append fid d hfid, Option.map_some',
    findMarker_none d hd]

/-- Helper: the retrieval sort key of a generated chunk identifier is its
ordinal, provided the file id contains no underscore (uuid4 file ids are hex
digits and hyphens). -/
theorem chunkKey_mkChunkId (fid : List Char) (n : Nat) (hfid : ∀ c ∈ fid, c ≠ '_') :
    chunkKey (mkChunkId fid n) = n := by
  have h := splitSecondField_append fid (natToDigits n) hfid
    (natToDigits_no_underscore n)
  rw [mkChunkId, List.append_assoc] at *
  rw [chunkKey, h]
  show (pyIntNat (natToDigits n)).getD 0 = n
  rw [pyIntNat_natToDigits]
  rfl

/-- Helper: no proper suffix of `chunkMarker ++ d` starts another marker
occurrence when `d` holds no underscore, because the marker's final
underscore would have to land inside `d`. -/
theorem sal_none_of_proper_suffix (d : List Char) (hd : '_' ∉ d) :
    ∀ t : List Char, (∃ u : List Char, u ≠ [] ∧ u ++ t = chunkMarker ++ d) →
      suffixAfterLastMarker t = none := by
  intro t
  induction t with
  | nil => intro _; rfl
  | cons c rest ih =>
    rintro ⟨u, hu, heq⟩
    have hrest : suffixAfterLastMarker rest = none := by
      refine ih ⟨u ++ [c], by simp, ?_⟩
      rw [List.append_assoc]
      simpa using heq
    rw [suffixAfterLastMarker, hrest]
    rw [if_neg ?hnp]
    case hnp =>
      intro hpre
      obtain ⟨v, hv⟩ := exists_of_isPrefixOf hpre
      rw [← hv] at heq
      rw [← List.append_assoc] at heq
      have hulen : 1 ≤ u.length := by
        cases u with
        | nil => exact absurd rfl hu
        | cons _ _ => simp
      have hF : (u ++ chunkMarker) ++ v =
          (u ++ ['_', 'c', 'h', 'u', 'n', 'k']) ++ ('_' :: v) := by
        simp [chunkMarker, List.append_assoc]
      rw [hF] at heq
      have hdrop := congrArg (List.drop 7) heq
      have h7 : 7 - (u ++ ['_', 'c', 'h', 'u', 'n', 'k']).length = 0 := by
        simp only [List.length_append, List.length_cons, List.length_nil]
        omega
      rw [List.drop_append_eq_append_drop, h7, List.drop_zero] at hdrop
      have hR : (chunkMarker ++ d).drop 7 = d := by
        rw [List.drop_append_eq_append_drop]
        simp [chunkMarker]
      rw [hR] at hdrop
      exact hd (hdrop ▸ List.mem_append_right _ (List.mem_cons_self _ _))

/-- Helper: parsing after the last marker occurrence in a generated
identifier recovers exactly the digit payload, for every file id — a later
occurrence would need an underscore among the digits. -/
theorem sal_append (fid d : List Char) (hd : '_' ∉ d) :
    suffixAfterLastMarker (fid ++ (chunkMarker ++ d)) = some d := by
  induction fid with
  | nil =>
    have h1 : suffixAfterLastMarker (['c', 'h', 'u', 'n', 'k', '_'] ++ d) = none :=
      sal_none_of_proper_suffix d hd _ ⟨['_'], by simp, by simp [chunkMarker]⟩
    have h2 : chunkMarker.isPrefixOf (chunkMarker ++ d) = true :=
      isPrefixOf_append_self chunkMarker d
    have h2' : chunkMarker.isPrefixOf
        ('_' :: (['c', 'h', 'u', 'n', 'k', '_'] ++ d)) = true := h2
    rw [List.nil_append]
    show suffixAfterLastMarker ('_' :: (['c', 'h', 'u', 'n', 'k', '_'] ++ d)) = some d
    rw [suffixAfterLastMarker, h1, h2']
    rfl
  | cons c fid' ih =>
    rw [List.cons_append, suffixAfterLastMarker, ih]

/-- Helper: the spec's ordinal parse inverts identifier construction for
every file id. -/
theorem parseOrdinal_mkChunkId (file_id : List Char) (n : Nat) :
    parseOrdinal (mkChunkId file_id n) = some n := by
  have h := sal_append file_id (natToDigits n) (natToDigits_no_underscore n)
  rw [parseOrdinal, mkChunkId, List.append_assoc, h, Option.some_bind,
    pyIntNat_natToDigits]

/-- C6: chunk identifiers round-trip — for every document identifier and
every chunk list, parsing the decimal suffix after the last `_chunk_` marker
of the identifiers assigned by `create_vector_store`, in assignment order,
yields exactly the sequence `0, 1, ..., len(chunks) - 1`: strictly
increasing, gapless, starting at 0, one identifier per chunk. -/
theorem create_ids_roundtrip (file_id : List Char) (chunks : List String) :
    (create_vector_store_ids file_id chunks).map parseOrdinal =
      (List.range chunks.length).map some ∧
    (create_vector_store_ids file_id chunks).length = chunks.length := by
  constructor
  · rw [create_vector_store_ids, List.map_map]
    exact List.map_congr_left (fun i _ => parseOrdinal_mkChunkId file_id i)
  · simp [create_vector_store_ids]

/-- Entry pair (chunk identifier, chunk text) as consumed from one ranked
per-query result of the vector index. -/
abbrev ChunkEntry := List Char × String

/-- Insertion step of the merge loop in `retrieve_chunks` (`rag.py` lines
158-160): `if chunk_id not in seen_chunks: seen_chunks[chunk_id] =
chunk_text`.  The Python dict preserves insertion order, modelled by an
association list that appends unseen keys at the end. -/
def insertChunk (seen : List ChunkEntry) (p : ChunkEntry) : List ChunkEntry :=
  if p.1 ∈ seen.map Prod.fst then seen else seen ++ [p]

/-- Merge loop of `retrieve_chunks` (`rag.py` lines 148-160): iterate over
the per-query result lists in query order and over each ranked result in
list order, inserting first-seen chunk identifiers with their text. -/
def mergeResults (results : List (List ChunkEntry)) : List ChunkEntry :=
  results.foldl (fun seen l => l.foldl insertChunk seen) []

/-- Comparison underlying
`sorted(seen_chunks.items(), key=lambda x: int(x[0].split("_chunk_")[1]))`
(`rag.py` lines 162-166). -/
def keyLE (a b : ChunkEntry) : Prop := chunkKey a.1 ≤ chunkKey b.1

instance : DecidableRel keyLE :=
  fun a b => inferInstanceAs (Decidable (chunkKey a.1 ≤ chunkKey b.1))

instance : IsTotal ChunkEntry keyLE :=
  ⟨fun a b => Nat.le_total (chunkKey a.1) (chunkKey b.1)⟩

instance : IsTrans ChunkEntry keyLE := ⟨fun _ _ _ => Nat.le_trans⟩

/-- Sort stage of `retrieve_chunks`: Python's `sorted` is a stable
comparison sort on the key, modelled by insertion sort over `keyLE`. -/
def sortedChunks (results : List (List ChunkEntry)) : List ChunkEntry :=
  (mergeResults results).insertionSort keyLE

/-- Assembly stage of `retrieve_chunks` (`rag.py` line 169):
`"\n\n".join(chunk for _, chunk in sorted_chunks)`. -/
def assembleChunks (results : List (List ChunkEntry)) : String :=
  String.intercalate "\n\n" ((sortedChunks results).map Prod.snd)

/-- Helper: the nested merge loop equals a single fold over the results
flattened in query order. -/
theorem mergeResults_eq_foldl (results : List (List ChunkEntry)) :
    mergeResults results = results.flatten.foldl insertChunk [] := by
  rw [mergeResults, List.foldl_flatten]

/-- Helper: the merge fold keeps identifiers duplicate-free, stores for each
entry the first pair of the scan with its identifier, and covers every
scanned identifier. -/
theorem foldl_insertChunk_spec (l : List ChunkEntry) :
    ((l.foldl insertChunk []).map Prod.fst).Nodup ∧
    (∀ p ∈ l.foldl insertChunk [],
      l.find? (fun q => q.1 == p.1) = some p) ∧
    (∀ q ∈ l, q.1 ∈ (l.foldl insertChunk []).map Prod.fst) := by
  induction l using List.reverseRecOn with
  | nil => simp
  | append_singleton l x ih =>
    obtain ⟨ih1, ih2, ih3⟩ := ih
    rw [List.foldl_append, List.foldl_cons, List.foldl_nil]
    by_cases hx : x.1 ∈ (l.foldl insertChunk []).map Prod.fst
    · rw [insertChunk, if_pos hx]
      refine ⟨ih1, ?_, ?_⟩
      · intro p hp
        rw [List.find?_append, ih2 p hp]
        rfl
      · intro q hq
        rcases List.mem_append.mp hq with hq | hq
        · exact ih3 q hq
        · rw [List.mem_singleton.mp hq]
          exact hx
    · rw [insertChunk, if_neg hx]
      have hfnone : l.find? (fun q => q.1 == x.1) = none := by
        rw [List.find?_eq_none]
        intro q hq hbeq
        exact hx (beq_iff_eq.mp hbeq ▸ ih3 q hq)
      refine ⟨?_, ?_, ?_⟩
      · rw [List.map_append]
        simp only [List.map_cons, List.map_nil]
        rw [List.nodup_append]
        exact ⟨ih1, List.nodup_singleton _,
          fun a ha hb => hx (List.mem_singleton.mp hb ▸ ha)⟩
      · intro p hp
        rcases List.mem_append.mp hp with hp | hp
        · rw [List.find?_append, ih2 p hp]
          rfl
        · rw [List.mem_singleton.mp hp]
          rw [List.find?_append, hfnone]
          simp [List.find?]
      · intro q hq
        rw [List.map_append]
        rcases List.mem_append.mp hq with hq | hq
        · exact List.mem_append_left _ (ih3 q hq)
        · exact List.mem_append_right _ (by
            simp [List.mem_singleton.mp hq])

/-- C3: the merge step deduplicates by chunk identifier with
first-seen-wins: the merged mapping has duplicate-free identifiers, each
stored entry is exactly the first pair carrying its identifier in the scan
over the expanded queries' results in query order (so a later query's copy
never overwrites it), an identifier appears in the merge iff some query
returned it, and the deduplication survives into the sorted sequence whose
texts form the final assembled context. -/
theorem merge_first_seen_wins (results : List (List ChunkEntry)) :
    ((mergeResults results).map Prod.fst).Nodup ∧
    (∀ p ∈ mergeResults results,
      results.flatten.find? (fun q => q.1 == p.1) = some p) ∧
    (∀ id, id ∈ (mergeResults results).map Prod.fst ↔
      id ∈ results.flatten.map Prod.fst) ∧
    ((sortedChunks results).map Prod.fst).Nodup := by
  obtain ⟨h1, h2, h3⟩ := foldl_insertChunk_spec results.flatten
  rw [← mergeResults_eq_foldl] at h1 h2 h3
  refine ⟨h1, h2, ?_, ?_⟩
  · intro id
    constructor
    · intro hid
      obtain ⟨p, hp, hpid⟩ := List.mem_map.mp hid
      have := List.mem_of_find?_eq_some (h2 p hp)
      exact hpid ▸ List.mem_map_of_mem Prod.fst this
    · intro hid
      obtain ⟨q, hq, hqid⟩ := List.mem_map.mp hid
      exact hqid ▸ h3 q hq
  · have hperm : List.Perm ((sortedChunks results).map Prod.fst)
        ((mergeResults results).map Prod.fst) :=
      (List.perm_insertionSort keyLE (mergeResults results)).map Prod.fst
    exact hperm.nodup_iff.mpr h1

/-- Witness for C3: a chunk identifier returned by both of two expanded
queries contributes exactly the first query's entry. -/
theorem merge_first_seen_wins_witness :
    (mkChunkId ['d'] 0, "first") ∈
      mergeResults [[(mkChunkId ['d'] 0, "first")], [(mkChunkId ['d'] 0, "second")]] ∧
    ([[(mkChunkId ['d'] 0, "first")], [(mkChunkId ['d'] 0, "second")]] :
        List (List ChunkEntry)).flatten.find?
      (fun q => q.1 == (mkChunkId ['d'] 0, "first").1) =
      some (mkChunkId ['d'] 0, "first") :=
  ⟨by decide,
    (merge_first_seen_wins
      [[(mkChunkId ['d'] 0, "first")], [(mkChunkId ['d'] 0, "second")]]).2.1
      (mkChunkId ['d'] 0, "first") (by decide)⟩

/-- Helper: identifier construction is injective in the ordinal. -/
theorem mkChunkId_injective (fid : List Char) {na nb : Nat}
    (h : mkChunkId fid na = mkChunkId fid nb) : na = nb := by
  have ha := parseOrdinal_mkChunkId fid na
  have hb := parseOrdinal_mkChunkId fid nb
  rw [h, hb] at ha
  exact Option.some.inj ha.symm

/-- C2: retrieval output preserves document order — for any two chunks
present in the sorted retrieval result whose identifiers were generated by
`create_vector_store` for a file id without underscores (uuid4 file ids are
hex digits and hyphens), the chunk with the lower parsed ordinal occupies an
earlier position in the assembled sequence than the chunk with the higher
ordinal, regardless of the similarity rank either chunk had in any expanded
query's result list. -/
theorem retrieval_document_order (fid : List Char) (hfid : ∀ c ∈ fid, c ≠ '_')
    (results : List (List ChunkEntry)) (ia ib na nb : Nat)
    (ha : ia < (sortedChunks results).length)
    (hb : ib < (sortedChunks results).length)
    (hA : ((sortedChunks results).get ⟨ia, ha⟩).1 = mkChunkId fid na)
    (hB : ((sortedChunks results).get ⟨ib, hb⟩).1 = mkChunkId fid nb)
    (hlt : na < nb) : ia < ib := by
  by_contra hcon
  push_neg at hcon
  have hsorted : List.Sorted keyLE (sortedChunks results) :=
    List.sorted_insertionSort keyLE (mergeResults results)
  rcases Nat.lt_or_ge ib ia with hlt2 | hge
  · have hrel := hsorted.rel_get_of_lt
      (a := ⟨ib, hb⟩) (b := ⟨ia, ha⟩) hlt2
    rw [keyLE, hA, hB, chunkKey_mkChunkId fid na hfid,
      chunkKey_mkChunkId fid nb hfid] at hrel
    omega
  · have heq : ia = ib := Nat.le_antisymm hge hcon
    subst heq
    rw [hA] at hB
    have := mkChunkId_injective fid hB
    omega

/-- Witness for C2: two chunks hit in similarity order 1 then 0 are emitted
in document order 0 then 1. -/
theorem retrieval_document_order_witness :
    (∀ c ∈ (['d'] : List Char), c ≠ '_') ∧
    ((sortedChunks [[(mkChunkId ['d'] 1, "B"), (mkChunkId ['d'] 0, "A")]]).get
      ⟨0, by decide⟩).1 = mkChunkId ['d'] 0 ∧
    ((sortedChunks [[(mkChunkId ['d'] 1, "B"), (mkChunkId ['d'] 0, "A")]]).get
      ⟨1, by decide⟩).1 = mkChunkId ['d'] 1 ∧
    (0 : Nat) < 1 :=
  ⟨by decide, by decide, by decide,
    retrieval_document_order ['d'] (by decide)
      [[(mkChunkId ['d'] 1, "B"), (mkChunkId ['d'] 0, "A")]] 0 1 0 1
      (by decide) (by decide) (by decide) (by decide) (by decide)⟩

/-- Transient failure raised by one per-query lookup against the index (an
embedding or backend error); the payload distinguishes concrete failures. -/
structure TransientFailure where
  code : Nat
deriving DecidableEq

/-- Outcome classification of a whole retrieval in the exception model. -/
inductive RetrieveError where
  | indexNotFound : RetrieveError
  | transient : TransientFailure → RetrieveError
deriving DecidableEq

/-- Sequencing of the per-query loop of `retrieve_chunks` (`rag.py` lines
150-160): the expanded queries run in order and an exception raised by any
`collection.query` call propagates immediately, aborting the loop; only a
loop that raises nowhere delivers all per-query result lists. -/
def runQueries :
    List (Except TransientFailure (List ChunkEntry)) →
      Except TransientFailure (List (List ChunkEntry))
  | [] => .ok []
  | .error e :: _ => .error e
  | .ok l :: rest => (runQueries rest).map (fun ls => l :: ls)

/-- Exception-level model of `retrieve_chunks` (`rag.py` lines 128-169):
`chroma_client.get_collection` raises when the collection is missing
(modelled by `collection = none`) and that error surfaces to the caller;
otherwise the per-query outcomes are consumed in order, any raised
per-query failure propagates and fails the whole retrieval, and only on
full success does the merge/sort/join pipeline assemble the output. -/
def retrieve_chunksE (collection : Option Unit)
    (queryOutcomes : List (Except TransientFailure (List ChunkEntry))) :
    Except RetrieveError String :=
  match collection with
  | none => .error .indexNotFound
  | some _ =>
    match runQueries queryOutcomes with
    | .error e => .error (.transient e)
    | .ok results => .ok (assembleChunks results)

/-- Helper: an error anywhere among the per-query outcomes makes the
sequenced loop fail. -/
theorem runQueries_error (outcomes : List (Except TransientFailure (List ChunkEntry)))
    (e : TransientFailure) (hmem : .error e ∈ outcomes) :
    ∃ e', runQueries outcomes = .error e' := by
  induction outcomes with
  | nil => cases hmem
  | cons o rest ih =>
    cases o with
    | error e0 => exact ⟨e0, rfl⟩
    | ok l =>
      rcases List.mem_cons.mp hmem with h | h
      · cases h
      · obtain ⟨e', he'⟩ := ih h
        exact ⟨e', by rw [runQueries, he']; rfl⟩

/-- Helper: an all-success outcome list sequences to its payload lists. -/
theorem runQueries_ok (results : List (List ChunkEntry)) :
    runQueries (results.map .ok) = .ok results := by
  induction results with
  | nil => rfl
  | cons l rest ih => rw [List.map_cons, runQueries, ih]; rfl

/-- C4 counterexample: with the collection present, a first query returning
one chunk and a second query failing transiently, the code aborts the whole
retrieval with the transient error instead of proceeding with the first
query's results (which would have assembled to `"A"`), contradicting the
claimed drop-and-proceed policy for transient per-query failures. -/
theorem retrieve_failure_policy_cex :
    retrieve_chunksE (some ())
        [.ok [(mkChunkId ['d'] 0, "A")], .error ⟨0⟩] =
      .error (.transient ⟨0⟩) ∧
    assembleChunks [[(mkChunkId ['d'] 0, "A")]] = "A" ∧
    retrieve_chunksE (some ())
        [.ok [(mkChunkId ['d'] 0, "A")], .error ⟨0⟩] ≠ .ok "A" := by
  refine ⟨rfl, by decide, ?_⟩
  intro h
  exact Except.noConfusion h

/-- C4 (amended): the failure policy is hard on both sides — a missing
collection surfaces `indexNotFound` rather than returning an empty result,
and a transient failure of any individual per-query lookup also fails the
whole retrieval with a transient error rather than dropping that query;
retrieval assembles a result exactly when every per-query lookup returns
(queries returning empty result lists merely contribute nothing). -/
theorem retrieve_failure_policy_amended
    (outcomes : List (Except TransientFailure (List ChunkEntry))) :
    retrieve_chunksE none outcomes = .error .indexNotFound ∧
    (∀ e : TransientFailure, .error e ∈ outcomes →
      ∃ e', retrieve_chunksE (some ()) outcomes = .error (.transient e')) ∧
    (∀ results : List (List ChunkEntry), outcomes = results.map .ok →
      retrieve_chunksE (some ()) outcomes = .ok (assembleChunks results)) := by
  refine ⟨rfl, ?_, ?_⟩
  · intro e hmem
    obtain ⟨e', he'⟩ := runQueries_error outcomes e hmem
    exact ⟨e', by rw [retrieve_chunksE, he']⟩
  · intro results hres
    rw [retrieve_chunksE, hres, runQueries_ok]

/-- Witness for C4 (amended): one transiently failing query fails the whole
retrieval. -/
theorem retrieve_failure_policy_amended_witness :
    (Except.error ⟨3⟩ : Except TransientFailure (List ChunkEntry)) ∈
      [(Except.error ⟨3⟩ : Except TransientFailure (List ChunkEntry))] ∧
    ∃ e', retrieve_chunksE (some ()) [.error ⟨3⟩] = .error (.transient e') :=
  ⟨List.mem_singleton.mpr rfl,
    (retrieve_failure_policy_amended [.error ⟨3⟩]).2.1 ⟨3⟩
      (List.mem_singleton.mpr rfl)⟩

/-- Validation performed by the `QueryExpansion` response model
(`backend/models/schema.py` lines 155-164): the `expanded_queries` field
carries `min_length=3, max_length=5`, so a response parses exactly when it
holds between 3 and 5 variants; `none` models the pydantic
`ValidationError` raised otherwise. -/
def queryExpansionValidate (variants : List String) : Option (List String) :=
  if 3 ≤ variants.length ∧ variants.length ≤ 5 then some variants else none

/-- Model of `expand_query` (`rag.py` lines 102-125): the text-generation
response is validated by the `QueryExpansion` schema and, on success, the
original query is prepended: `return [user_query] + result.expanded_queries`. -/
def expand_query (user_query : String) (response : List String) :
    Option (List String) :=
  (queryExpansionValidate response).map (fun v => user_query :: v)

/-- C5 counterexample: a text-generation response with 4 variants — a count
other than 3 — is accepted, and the returned sequence has 5 strings, not 4;
the schema constrains the variant count to the range 3..5, not to exactly
3. -/
theorem expand_query_exactly_three_cex :
    expand_query "q" ["v1", "v2", "v3", "v4"] =
      some ["q", "v1", "v2", "v3", "v4"] ∧
    (["q", "v1", "v2", "v3", "v4"] : List String).length ≠ 4 := by
  exact ⟨rfl, by decide⟩

/-- C5 (amended): `expand_query` returns an ordered sequence of 4 to 6
strings — the original query first, followed by the generated variants kept
verbatim — accepting any response with 3 to 5 variants; only a response
with fewer than 3 or more than 5 variants is rejected as a contract
violation rather than silently truncated or padded. -/
theorem expand_query_count (user_query : String) (response : List String) :
    (3 ≤ response.length ∧ response.length ≤ 5 →
      expand_query user_query response = some (user_query :: response) ∧
      (user_query :: response).length = response.length + 1 ∧
      4 ≤ (user_query :: response).length ∧
      (user_query :: response).length ≤ 6) ∧
    (response.length < 3 ∨ 5 < response.length →
      expand_query user_query response = none) := by
  constructor
  · intro h
    rw [expand_query, queryExpansionValidate, if_pos h]
    exact ⟨rfl, by simp, by simp; omega, by simp; omega⟩
  · intro h
    rw [expand_query, queryExpansionValidate, if_neg (by omega)]
    rfl

/-- Witness for C5 (amended): a 3-variant response yields the original plus
the variants, 4 strings in total. -/
theorem expand_query_count_witness :
    (3 ≤ (["a", "b", "c"] : List String).length ∧
      (["a", "b", "c"] : List String).length ≤ 5) ∧
    expand_query "q" ["a", "b", "c"] = some ["q", "a", "b", "c"] :=
  ⟨by decide, ((expand_query_count "q" ["a", "b", "c"]).1 (by decide)).1⟩

end FileSearch
